import Mathlib

/-!
A verification development for the MiniShell repository (C++17).

Shallow embedding of the shell's pure parsing and decision logic:
the tokenizer (minishell_tokenize.hpp), the pipeline splitter and
redirection parser (main.cpp), parameter expansion and glob expansion
(minishell_expand.hpp), the builtin/auto-cd dispatch decision (main.cpp),
the `cd` builtin (minishell_builtins.hpp), the job table's `fg`
(minishell_jobs.hpp), and the foreground wait of `run_pipeline` (main.cpp).

OS-dependent primitives (getenv, chdir, the platform glob routine,
std::filesystem::is_directory, the status returned by waitpid) are passed
in as explicit parameters, so every definition is executable.
-/

namespace MiniShell

/-! ### Tokenizer (src/minishell_tokenize.hpp, mshell::tokenize) -/

/-- Tokenizer state, as in `enum State { BASE, IN_SQ, IN_DQ }`. -/
inductive TState where
  | BASE : TState
  | IN_SQ : TState
  | IN_DQ : TState
deriving DecidableEq, Repr

/-- The `flush` lambda of `mshell::tokenize`: push the current word onto the
output when it is nonempty.  The current word is modelled as a `List Char`
(the characters accumulated in the C++ `std::string cur`). -/
def flushTok (acc : List String) (cur : List Char) : List String :=
  if cur.isEmpty then acc else acc ++ [String.mk cur]

/-- C-locale `isspace`, as applied by the tokenizer's BASE state. -/
def isCSpace (c : Char) : Bool :=
  c = ' ' || c = '\t' || c = '\n' || c = '\x0b' || c = '\x0c' || c = '\r'

/-- The characters treated specially after a backslash inside double quotes
(`"`, `\`, `$` and the backquote, see minishell_tokenize.hpp line 61). -/
def dqSpecial (c : Char) : Bool :=
  c = '"' || c = '\\' || c = '$' || c = Char.ofNat 96

/-- The character loop of `mshell::tokenize`: walks the remaining input in
state `st` with current word `cur` and output `acc`; at end-of-input the
current word is flushed (whatever the state) and the final state returned.
The two-character cases mirror the C++ `++i` look-ahead consumption.
The `fuel` argument only bounds the number of loop iterations (the C++
index `i` advances by at least one per iteration, so any fuel of at least
the input length is exact); it makes the recursion structural. -/
def tokenizeAuxF : Nat → List Char → TState → List Char → List String → List String × TState
  | _, [], st, cur, acc => (flushTok acc cur, st)
  | 0, _ :: _, st, cur, acc => (flushTok acc cur, st)
  | f + 1, c :: rest, TState.BASE, cur, acc =>
    if isCSpace c then tokenizeAuxF f rest TState.BASE [] (flushTok acc cur)
    else if c = '\'' then tokenizeAuxF f rest TState.IN_SQ cur acc
    else if c = '"' then tokenizeAuxF f rest TState.IN_DQ cur acc
    else if c = '\\' then
      match rest with
      | d :: rest2 => tokenizeAuxF f rest2 TState.BASE (cur ++ [d]) acc
      | [] => (flushTok acc cur, TState.BASE)
    else tokenizeAuxF f rest TState.BASE (cur ++ [c]) acc
  | f + 1, c :: rest, TState.IN_SQ, cur, acc =>
    if c = '\'' then tokenizeAuxF f rest TState.BASE cur acc
    else tokenizeAuxF f rest TState.IN_SQ (cur ++ [c]) acc
  | f + 1, c :: rest, TState.IN_DQ, cur, acc =>
    if c = '"' then tokenizeAuxF f rest TState.BASE cur acc
    else if c = '\\' then
      match rest with
      | d :: rest2 =>
        if dqSpecial d then tokenizeAuxF f rest2 TState.IN_DQ (cur ++ [d]) acc
        else tokenizeAuxF f rest TState.IN_DQ (cur ++ ['\\']) acc
      | [] => tokenizeAuxF f rest TState.IN_DQ (cur ++ ['\\']) acc
    else tokenizeAuxF f rest TState.IN_DQ (cur ++ [c]) acc

/-- `mshell::tokenize` together with the (internal) state the machine is in
when end-of-input is reached. -/
def tokenizeSt (line : String) : List String × TState :=
  tokenizeAuxF line.toList.length line.toList TState.BASE [] []

/-- `mshell::tokenize`: the token texts produced for a line. -/
def tokenize (line : String) : List String :=
  (tokenizeSt line).1

/-! ### Pipeline splitter (src/main.cpp, split_pipeline) -/

/-- One step of the quote tracking in `split_pipeline`
(`if (c == '"' && !sq) dq ^= 1; else if (c == '\'' && !dq) sq ^= 1;`). -/
def quoteStep (dq sq : Bool) (c : Char) : Bool × Bool :=
  if c = '"' && !sq then (!dq, sq)
  else if c = '\'' && !dq then (dq, !sq)
  else (dq, sq)

/-- The character loop of `split_pipeline`: an unquoted `|` flushes the
current stage when it is nonempty (an empty current stage is silently
dropped); every other character, quotes included, is appended. -/
def split_pipelineAux : List Char → Bool → Bool → List Char → List String → List String
  | [], _, _, cur, parts => if cur.isEmpty then parts else parts ++ [String.mk cur]
  | c :: rest, dq, sq, cur, parts =>
    if c = '|' && !(quoteStep dq sq c).1 && !(quoteStep dq sq c).2 then
      if cur.isEmpty then
        split_pipelineAux rest (quoteStep dq sq c).1 (quoteStep dq sq c).2 [] parts
      else
        split_pipelineAux rest (quoteStep dq sq c).1 (quoteStep dq sq c).2 []
          (parts ++ [String.mk cur])
    else split_pipelineAux rest (quoteStep dq sq c).1 (quoteStep dq sq c).2 (cur ++ [c]) parts

/-- `split_pipeline` (main.cpp lines 143-156): split a line on unquoted `|`. -/
def split_pipeline (line : String) : List String :=
  split_pipelineAux line.toList false false [] []

/-! ### Redirection parser (src/main.cpp, parse_redirections) -/

/-- The `Redir` record of main.cpp.  The C++ field `in` is a Lean keyword and
is rendered `rin`; `out` and `append` keep their names. -/
structure Redir where
  rin : String := ""
  out : String := ""
  append : Bool := false
deriving DecidableEq, Repr

/-- `parse_redirections` (main.cpp lines 158-167): a linear pass that pulls
`<`, `>`, `>>` and their operands out of the word list.  An operator is
consumed together with the following word only when a following word exists
(`i + 1 < argv.size()`); an operator in final position falls through to the
`else` branch and is kept as an ordinary word. -/
def parse_redirections : List String → Redir → List String × Redir
  | [], r => ([], r)
  | a :: rest, r =>
    if a = "<" then
      match rest with
      | b :: rest2 => parse_redirections rest2 { r with rin := b }
      | [] => ([a], r)
    else if a = ">" then
      match rest with
      | b :: rest2 => parse_redirections rest2 { r with out := b, append := false }
      | [] => ([a], r)
    else if a = ">>" then
      match rest with
      | b :: rest2 => parse_redirections rest2 { r with out := b, append := true }
      | [] => ([a], r)
    else
      let p := parse_redirections rest r
      (a :: p.1, p.2)

/-- Whether a word is one of the three redirection operators. -/
def isRedirOp (w : String) : Bool :=
  w = "<" || w = ">" || w = ">>"

/-! ### Parameter expansion (src/minishell_expand.hpp, mshell::expand_scalars)

The third loop of `expand_scalars` (lines 85-110): the `$`-scan.  The
environment is passed in as `env : String → String`, modelling
`getenv_str`, which returns the variable's value or the empty string when
the variable is undefined.  (The tilde and command-substitution passes at
lines 54-83 run before this loop and are independent of it; command
substitution executes a child process and is outside this pure model.) -/

/-- A character the `$NAME` scan accepts:
`std::isalnum((unsigned char)s[j]) || s[j] == '_'` (C locale). -/
def isNameChar (c : Char) : Bool :=
  c.isAlpha || c.isDigit || c = '_'

/-- `s.find(125, i + 2)` on the remaining characters: split the list at the
first closing brace, returning the text before it and the text after it;
`none` when no closing brace exists. -/
def takeUntilBrace : List Char → Option (List Char × List Char)
  | [] => none
  | c :: cs =>
    if c = '\x7d' then some ([], cs)
    else
      match takeUntilBrace cs with
      | some (a, b) => some (c :: a, b)
      | none => none

/-- The action taken when the scan of `expand_scalars` sits on a `$`:
given the characters after the `$`, return the replacement text and the
remaining input when an expansion applies (`${KEY}` with a closing brace,
or a nonempty run of name characters), and `none` when the `$` is passed
through untouched. -/
def scanDollar (env : String → String) (rest : List Char) : Option (List Char × List Char) :=
  match rest with
  | [] => none
  | b :: rest2 =>
    if b = '\x7b' then
      match takeUntilBrace rest2 with
      | some (key, after) => some ((env (String.mk key)).toList, after)
      | none => none
    else
      let name := rest.takeWhile isNameChar
      if 0 < name.length then some ((env (String.mk name)).toList, rest.drop name.length)
      else none

/-- The `$`-scan loop of `expand_scalars`.  One iteration consumes at least
one character (the C++ `i` strictly increases and the substituted value is
skipped, `i += val.size(); continue`), so any fuel of at least the input
length is exact; fuel makes the recursion structural. -/
def expand_paramsF (env : String → String) : Nat → List Char → List Char
  | _, [] => []
  | 0, cs => cs
  | f + 1, c :: rest =>
    if c = '$' then
      match scanDollar env rest with
      | some (rep, after) => rep ++ expand_paramsF env f after
      | none => c :: expand_paramsF env f rest
    else c :: expand_paramsF env f rest

/-- The parameter-expansion pass of `mshell::expand_scalars`
(minishell_expand.hpp lines 85-110) on a token's characters. -/
def expand_params (env : String → String) (cs : List Char) : List Char :=
  expand_paramsF env cs.length cs

/-! ### Glob expansion (src/minishell_expand.hpp, mshell::glob_expand) -/

/-- `mshell::glob_expand` (lines 118-132).  The platform `glob(3)` routine is
passed in as `globFn`: `some paths` models a zero return with `gl_pathv`
holding `paths`; `none` models a nonzero return (no match or error).  On
`none`, the token itself is the single result. -/
def glob_expand (globFn : String → Option (List String)) (s : String) : List String :=
  match globFn s with
  | some paths => paths
  | none => [s]

/-- Whether a string contains one of the glob metacharacters
`*`, `?`, `[` handled by `glob(3)` with default flags. -/
def hasGlobMeta (s : String) : Bool :=
  s.toList.any (fun c => c = '*' || c = '?' || c = '[')

/-! ### Foreground wait of run_pipeline (src/main.cpp, run_pipeline) -/

/-- The status `waitpid` reports for one child. -/
inductive WaitStatus where
  | exited : Nat → WaitStatus
  | signaled : Nat → WaitStatus
  | stopped : Nat → WaitStatus
deriving DecidableEq, Repr

/-- `WIFEXITED(status) ? WEXITSTATUS(status) : 1` (main.cpp line 355). -/
def wstatusToExit : WaitStatus → Nat
  | WaitStatus.exited code => code
  | WaitStatus.signaled _ => 1
  | WaitStatus.stopped _ => 1

/-- The return value of `run_pipeline` after the fork loop (main.cpp lines
339-355).  `sts` lists the wait statuses of the `n` forked children, stage
by stage.  For a background pipeline the function registers the job and
returns 0 without waiting.  For a foreground pipeline it performs a single
`waitpid(-pgid, &status, 0)`: the kernel reports whichever child of the
group changes state first, an index `k` chosen by the scheduler, and the
function returns `WIFEXITED ? WEXITSTATUS : 1` of that one status. -/
def run_pipeline_result (background : Bool) (sts : List WaitStatus) (k : Nat) : Nat :=
  if background then 0
  else wstatusToExit (sts.getD k (WaitStatus.exited 0))

/-! ### Dispatch decision of the REPL (src/main.cpp, main, lines 479-491;
same guard in execute_command_string, lines 218-226) -/

/-- Where one input line is executed. -/
inductive LineAction where
  | autocd : LineAction
  | builtinInShell : LineAction
  | pipeline : Nat → LineAction
deriving DecidableEq, Repr

/-- The dispatch decision of the REPL body: only under
`stages.size() == 1 && !background` are auto-cd and `builtin_dispatch`
consulted, in that order; in every other case control reaches
`run_pipeline`, whose fork loop spawns one child per stage.
`autocdHit` is the value of `mshell::try_autocd(commands[0])` and
`isBuiltin` the value of `mshell::builtin_dispatch(benv, commands[0], es)`. -/
def main_dispatch (stages : Nat) (background : Bool)
    (autocdHit : Bool) (isBuiltin : Bool) : LineAction :=
  if stages == 1 && !background then
    if autocdHit then LineAction.autocd
    else if isBuiltin then LineAction.builtinInShell
    else LineAction.pipeline stages
  else LineAction.pipeline stages

/-! ### Job table (src/minishell_jobs.hpp, mshell::JobTable) -/

/-- The `Job` record (minishell_jobs.hpp lines 21-27). -/
structure Job where
  id : Nat
  pgid : Int
  cmdline : String
  stopped : Bool
  running : Bool
deriving DecidableEq, Repr

/-- `JobTable::remove(pg)`: erase every entry whose pgid is `pg`
(minishell_jobs.hpp lines 122-129).  The `std::map` is modelled as a list
of jobs with distinct ids. -/
def removeJob (jobs : List Job) (pg : Int) : List Job :=
  jobs.filter (fun j => j.pgid != pg)

/-- `WIFEXITED(status) || WIFSIGNALED(status)`: the wait reported that the
process group's leader terminated (rather than stopped). -/
def wsEnded : WaitStatus → Bool
  | WaitStatus.exited _ => true
  | WaitStatus.signaled _ => true
  | WaitStatus.stopped _ => false

/-- `JobTable::fg(id)` (minishell_jobs.hpp lines 85-104).  `ws` is the
status the blocking `waitpid(-job.pgid, &status, WUNTRACED)` reports.  On
an unknown id the table is untouched and `false` returned.  Otherwise, if
the wait reports exit or signal the job's pgid is removed; in every other
case (a stop included) the table is returned unchanged — no field of the
job is written. -/
def fgStep (jobs : List Job) (id : Nat) (ws : WaitStatus) : List Job × Bool :=
  match jobs.find? (fun j => j.id == id) with
  | none => (jobs, false)
  | some job =>
    if wsEnded ws then (removeJob jobs job.pgid, true)
    else (jobs, true)

/-! ### The cd builtin (src/minishell_builtins.hpp, builtin_dispatch) -/

/-- Observable outcome of the `cd` branch of `builtin_dispatch`. -/
structure CdOut where
  exit_status : Nat
  errPrinted : Bool
  cwd : String
deriving DecidableEq, Repr

/-- The `cd` branch of `mshell::builtin_dispatch` (lines 122-127).
`chdirOk t` tells whether `chdir(t)` succeeds; on success the working
directory becomes the target, on failure (POSIX `chdir` is atomic) it is
unchanged and a diagnostic goes to stderr.  The branch sets
`exit_status = 0` on both paths.  `home` models `getenv("HOME")`. -/
def cd_builtin (chdirOk : String → Bool) (home : Option String)
    (cwd : String) (argv : List String) : CdOut :=
  let target :=
    match argv with
    | _ :: t :: _ => t
    | _ => match home with | some h => h | none => "/"
  if chdirOk target then { exit_status := 0, errPrinted := false, cwd := target }
  else { exit_status := 0, errPrinted := true, cwd := cwd }

/-! ### Auto-cd (src/minishell_builtins.hpp, try_autocd; src/main.cpp
lines 479-480) -/

/-- `mshell::try_autocd` (lines 238-247): true exactly when the word list is
nonempty and its first word names an existing directory; only the first
word is consulted.  `isDir` models `std::filesystem::is_directory`. -/
def try_autocd (isDir : String → Bool) (argv : List String) : Bool :=
  match argv with
  | [] => false
  | a :: _ => isDir a

/-- Observable outcome of a line the REPL handled through auto-cd. -/
structure AutocdOut where
  last_status : Nat
  cwd : String
deriving DecidableEq, Repr

/-- The auto-cd arm of the REPL (main.cpp line 480):
`if (mshell::try_autocd(commands[0])) { last_status = 0; continue; }`.
Returns `none` when auto-cd does not trigger.  When it triggers the
remaining words are never consulted, `chdir(argv[0])` is attempted
(`chdirOk` tells whether it succeeds; on failure a diagnostic is printed
and the directory stays), and `last_status` is set to 0. -/
def autocd_step (isDir chdirOk : String → Bool) (cwd : String)
    (argv : List String) : Option AutocdOut :=
  match argv with
  | [] => none
  | a :: _ =>
    if isDir a then
      some { last_status := 0, cwd := if chdirOk a then a else cwd }
    else none

end MiniShell

open MiniShell

/-! ## Claim C1 — foreground exit status of run_pipeline -/

/-- C1, counterexample.  The claim says the foreground return of
`run_pipeline` is the last stage's status.  The code performs a single
`waitpid(-pgid, &status, 0)`, which reports whichever child of the group
changes state first.  With two stages whose children report
`exited 1` (stage 1) and `exited 0` (stage 2), a schedule in which the
first stage's child is reaped (`k = 0`) returns 1, not the last child's 0. -/
theorem C1_counterexample :
    run_pipeline_result false [WaitStatus.exited 1, WaitStatus.exited 0] 0 = 1
    ∧ wstatusToExit (WaitStatus.exited 0) = 0
    ∧ decide (run_pipeline_result false [WaitStatus.exited 1, WaitStatus.exited 0] 0
        = wstatusToExit (WaitStatus.exited 0)) = false := by
  decide

/-- C1 (amended): for a foreground pipeline, `run_pipeline` returns the
status of the single child its one `waitpid` on the process group reaps —
whichever child changes state first (index `k`) — mapped through
`WIFEXITED ? WEXITSTATUS : 1`; only for a one-stage pipeline is this
guaranteed to be the last (only) stage's status. -/
theorem C1_foreground_status (sts : List WaitStatus) (k : Nat) (hk : k < sts.length) :
    run_pipeline_result false sts k = wstatusToExit (sts.getD k (WaitStatus.exited 0))
    ∧ (sts.length = 1 → run_pipeline_result false sts k
        = wstatusToExit (sts.getD (sts.length - 1) (WaitStatus.exited 0))) := by
  refine ⟨rfl, fun h1 => ?_⟩
  have hk0 : k = 0 := by omega
  subst hk0
  rw [h1]
  rfl

/-- C1, witness: the amended theorem applied to the one-stage pipeline
whose only child reports `exited 7`. -/
theorem C1_foreground_status_witness :
    run_pipeline_result false [WaitStatus.exited 7] 0
      = wstatusToExit ([WaitStatus.exited 7].getD 0 (WaitStatus.exited 0))
    ∧ run_pipeline_result false [WaitStatus.exited 7] 0
      = wstatusToExit ([WaitStatus.exited 7].getD
          ([WaitStatus.exited 7].length - 1) (WaitStatus.exited 0)) :=
  ⟨(C1_foreground_status [WaitStatus.exited 7] 0 (by decide)).1,
   (C1_foreground_status [WaitStatus.exited 7] 0 (by decide)).2 (by decide)⟩

/-! ## Claim C2 — in-process builtin guard -/

/-- C2: a built-in command (`isBuiltin = true`, auto-cd not triggering) is
executed inside the shell process exactly when the parsed pipeline has one
stage and no trailing `&`; in every other case control reaches
`run_pipeline`, which forks one child per stage — in particular
`echo x | cat` (two stages) forks two children. -/
theorem C2_builtin_guard (stages : Nat) (background : Bool) :
    (main_dispatch stages background false true = LineAction.builtinInShell
      ↔ (stages = 1 ∧ background = false))
    ∧ main_dispatch 2 false false true = LineAction.pipeline 2 := by
  constructor
  · constructor
    · intro h
      by_cases h1 : stages = 1
      · cases background
        · exact ⟨h1, rfl⟩
        · subst h1; simp [main_dispatch] at h
      · simp [main_dispatch, h1] at h
    · rintro ⟨h1, h2⟩
      subst h1; subst h2
      decide
  · decide

/-! ## Claim C7 — cd on a nonexistent directory -/

/-- C7, counterexample.  `cd /nonexistent` does write a diagnostic to
stderr and leaves the working directory unchanged, but the `cd` branch of
`builtin_dispatch` sets `exit_status = 0` on the failure path too
(minishell_builtins.hpp line 126), so `last_status` becomes 0, not the
claimed 1. -/
theorem C7_counterexample :
    cd_builtin (fun _ => false) none "/start" ["cd", "/nonexistent"]
      = { exit_status := 0, errPrinted := true, cwd := "/start" }
    ∧ decide ((cd_builtin (fun _ => false) none "/start"
        ["cd", "/nonexistent"]).exit_status = 1) = false := by
  decide

/-- C7 (amended): running `cd` on a directory `chdir` cannot enter writes a
diagnostic to stderr and leaves the working directory unchanged, but sets
`last_status` to 0 (the `cd` builtin always reports success). -/
theorem C7_cd_failure (chdirOk : String → Bool) (home : Option String)
    (cwd d : String) (h : chdirOk d = false) :
    cd_builtin chdirOk home cwd ["cd", d]
      = { exit_status := 0, errPrinted := true, cwd := cwd } := by
  simp [cd_builtin, h]

/-- C7, witness: the amended theorem at a concrete failing `chdir`. -/
theorem C7_cd_failure_witness :
    cd_builtin (fun _ => false) none "/s" ["cd", "/nope"]
      = { exit_status := 0, errPrinted := true, cwd := "/s" } :=
  C7_cd_failure (fun _ => false) none "/s" "/nope" rfl

/-! ## Claim C9 — glob expansion on no match -/

/-- C9: when the platform glob routine reports no match (nonzero return),
`glob_expand s` is exactly `[s]`; and when `s` has no glob metacharacter —
so that the platform routine, if it matches at all, matches exactly the
literal path `s` — the result is again `[s]`. -/
theorem C9_glob_no_match (globFn : String → Option (List String)) (s : String) :
    (globFn s = none → glob_expand globFn s = [s])
    ∧ (hasGlobMeta s = false →
        (∀ r, globFn s = some r → r = [s]) → glob_expand globFn s = [s]) := by
  constructor
  · intro h
    simp [glob_expand, h]
  · intro _ hplat
    unfold glob_expand
    cases hg : globFn s with
    | none => rfl
    | some r => rw [hplat r hg]

/-- C9, witness: the theorem applied to a glob routine reporting no match,
and to one matching the literal path, on the metacharacter-free `abc`. -/
theorem C9_glob_no_match_witness :
    glob_expand (fun _ => none) "abc" = ["abc"]
    ∧ glob_expand (fun t => some [t]) "abc" = ["abc"] :=
  ⟨(C9_glob_no_match (fun _ => none) "abc").1 rfl,
   (C9_glob_no_match (fun t => some [t]) "abc").2 (by decide)
     (fun r h => by injection h with h2; exact h2.symm)⟩

/-! ## Claim C10 — auto-cd on a multi-word command -/

/-- C10: auto-cd triggers whenever the first word of a one-stage foreground
command names an existing directory, however many words follow; the shell
changes into that directory (when `chdir` succeeds), ignores the remaining
words entirely, and sets `last_status` to 0. -/
theorem C10_autocd (isDir chdirOk : String → Bool) (cwd a : String)
    (rest1 rest2 : List String) (h : isDir a = true) :
    autocd_step isDir chdirOk cwd (a :: rest1)
      = some { last_status := 0, cwd := if chdirOk a then a else cwd }
    ∧ autocd_step isDir chdirOk cwd (a :: rest1)
      = autocd_step isDir chdirOk cwd (a :: rest2)
    ∧ try_autocd isDir (a :: rest1) = true := by
  refine ⟨?_, ?_, ?_⟩ <;> simp [autocd_step, try_autocd, h]

/-- C10, witness: auto-cd on the three-word command `proj x y` whose first
word is a directory. -/
theorem C10_autocd_witness :
    autocd_step (fun _ => true) (fun _ => true) "/" ["proj", "x", "y"]
      = some { last_status := 0, cwd := "proj" }
    ∧ autocd_step (fun _ => true) (fun _ => true) "/" ["proj", "x", "y"]
      = autocd_step (fun _ => true) (fun _ => true) "/" ["proj"]
    ∧ try_autocd (fun _ => true) ["proj", "x", "y"] = true :=
  C10_autocd (fun _ => true) (fun _ => true) "/" "proj" ["x", "y"] [] rfl

/-! ## Claim C6 — fg after the wait returns -/

/-- C6, counterexample.  When the wait inside `JobTable::fg` reports a stop,
the job does remain in the table, but `fg` writes no field of it: with a
job whose `stopped` flag is `false`, after `fg` observes `stopped 20` the
table still holds the job with `stopped = false` — it is not marked
Stopped (only the async SIGCHLD path ever sets that flag, and the blocking
`waitpid` inside `fg` has already consumed the status). -/
theorem C6_counterexample :
    (fgStep [⟨1, 100, "sleep 5", false, true⟩] 1 (WaitStatus.stopped 20)).1
      = [⟨1, 100, "sleep 5", false, true⟩]
    ∧ decide (∃ jb ∈ (fgStep [⟨1, 100, "sleep 5", false, true⟩] 1
        (WaitStatus.stopped 20)).1, jb.stopped = true) = false := by
  decide

/-- C6 (amended): for a job present in the table, after the wait inside
`fg` returns: if the wait reports exit or signal, every entry with the
job's pgid is removed; in every other case — a stop included — the table
is returned entirely unchanged, the job's `stopped` flag not updated. -/
theorem C6_fg_wait (jobs : List Job) (id : Nat) (ws : WaitStatus) (j : Job)
    (h : jobs.find? (fun k => k.id == id) = some j) :
    (wsEnded ws = true →
      ((fgStep jobs id ws).1.all (fun k => k.pgid != j.pgid)) = true
      ∧ (fgStep jobs id ws).2 = true)
    ∧ (wsEnded ws = false → fgStep jobs id ws = (jobs, true)) := by
  constructor
  · intro hend
    rw [fgStep, h, hend]
    refine ⟨?_, rfl⟩
    simp only [if_true, removeJob, List.all_eq_true, List.mem_filter]
    exact fun k hk => hk.2
  · intro hend
    rw [fgStep, h, hend]
    rfl

/-- C6, witness: the amended theorem on a one-job table, once for a wait
reporting an exit (the job is removed) and once for a stop (the table is
unchanged). -/
theorem C6_fg_wait_witness :
    ((fgStep [⟨1, 100, "sleep 5", false, true⟩] 1 (WaitStatus.exited 0)).1.all
        (fun k => k.pgid != (100 : Int))) = true
    ∧ fgStep [⟨1, 100, "sleep 5", false, true⟩] 1 (WaitStatus.stopped 20)
        = ([⟨1, 100, "sleep 5", false, true⟩], true) :=
  ⟨((C6_fg_wait [⟨1, 100, "sleep 5", false, true⟩] 1 (WaitStatus.exited 0)
      ⟨1, 100, "sleep 5", false, true⟩ rfl).1 rfl).1,
   (C6_fg_wait [⟨1, 100, "sleep 5", false, true⟩] 1 (WaitStatus.stopped 20)
      ⟨1, 100, "sleep 5", false, true⟩ rfl).2 rfl⟩

/-! ## Claim C5 — empty pipeline stages -/

/-- C5, counterexample.  `split_pipeline` raises no error on consecutive
unquoted bars or on a leading bar: `a||b` splits into the two stages
`a` and `b`, and `|foo` into the single stage `foo` — the empty stage is
silently dropped (`if (!cur.empty())`, main.cpp lines 151 and 154), and no
EmptyStage error exists anywhere in the code. -/
theorem C5_counterexample :
    split_pipeline "a||b" = ["a", "b"] ∧ split_pipeline "|foo" = ["foo"] := by
  decide

/-- A nonempty character list never builds the empty string. -/
theorem mk_ne_empty_beq (cur : List Char) (h : cur.isEmpty = false) :
    (String.mk cur == "") = false := by
  apply beq_eq_false_iff_ne.mpr
  intro hh
  cases cur with
  | nil => simp at h
  | cons c cs =>
    have hd : (String.mk (c :: cs)).data = ("" : String).data := by rw [hh]
    simp at hd

/-- Stages pushed by `split_pipelineAux` are never empty, whatever the
quoting state and pending text. -/
theorem split_pipelineAux_no_empty :
    ∀ (cs : List Char) (dq sq : Bool) (cur : List Char) (parts : List String),
      parts.all (fun s => !(s == "")) = true →
      (split_pipelineAux cs dq sq cur parts).all (fun s => !(s == "")) = true := by
  intro cs
  induction cs with
  | nil =>
    intro dq sq cur parts hp
    by_cases hc : cur.isEmpty = true
    · simpa [split_pipelineAux, hc] using hp
    · have hc2 : cur.isEmpty = false := by
        cases hcv : cur.isEmpty
        · rfl
        · exact absurd hcv hc
      simp only [split_pipelineAux, hc2, Bool.false_eq_true, if_false, List.all_append, hp,
        List.all_cons, List.all_nil, Bool.and_true, Bool.true_and]
      simp [mk_ne_empty_beq cur hc2]
  | cons c rest ih =>
    intro dq sq cur parts hp
    by_cases h1 : (c = '|' && !(quoteStep dq sq c).1 && !(quoteStep dq sq c).2) = true
    · by_cases hc : cur.isEmpty = true
      · simp only [split_pipelineAux, h1, if_true, hc]
        exact ih _ _ _ _ hp
      · have hc2 : cur.isEmpty = false := by
          cases hcv : cur.isEmpty
          · rfl
          · exact absurd hcv hc
        simp only [split_pipelineAux, h1, if_true, hc2, Bool.false_eq_true, if_false]
        apply ih
        simp only [List.all_append, hp, List.all_cons, List.all_nil, Bool.and_true,
          Bool.true_and]
        simp [mk_ne_empty_beq cur hc2]
    · have h2 : (c = '|' && !(quoteStep dq sq c).1 && !(quoteStep dq sq c).2) = false := by
        cases hv : (c = '|' && !(quoteStep dq sq c).1 && !(quoteStep dq sq c).2)
        · rfl
        · exact absurd hv h1
      simp only [split_pipelineAux, h2, Bool.false_eq_true, if_false]
      exact ih _ _ _ _ hp

/-- C5 (amended): splitting on unquoted bars never fails and never yields
an empty stage: consecutive unquoted bars, a leading bar or a trailing bar
simply contribute no stage, and every returned stage is a nonempty string. -/
theorem C5_no_empty_stage (line : String) :
    (split_pipeline line).all (fun s => !(s == "")) = true :=
  split_pipelineAux_no_empty line.toList false false [] [] rfl

/-! ## Claim C3 — redirection parsing -/

/-- C3, counterexample.  A redirection operator in final position has no
operand word to consume (`i + 1 < argv.size()` fails), so it falls through
to the `else` branch of `parse_redirections` and is kept in the word list
as an ordinary word: parsing `[">"]` returns `[">"]`, and no
RedirWithoutOperand error exists anywhere in the code. -/
theorem C3_counterexample :
    (parse_redirections [">"] {}).1 = [">"] ∧ isRedirOp ">" = true := by
  decide

/-- Bounded-length form of the C3 invariant, for strong induction: every
word of the parsed list except possibly the final one is an ordinary word,
not a redirection operator. -/
theorem parse_redirections_ops_aux :
    ∀ (n : Nat) (argv : List String) (r : Redir), argv.length ≤ n →
      ((parse_redirections argv r).1.dropLast.all (fun w => !(isRedirOp w))) = true := by
  intro n
  induction n with
  | zero =>
    intro argv r h
    have hnil : argv = [] := List.eq_nil_of_length_eq_zero (Nat.le_zero.mp h)
    subst hnil
    rfl
  | succ n ih =>
    intro argv r h
    cases argv with
    | nil => rfl
    | cons a rest =>
      have hlen : rest.length ≤ n := by
        simp at h
        omega
      by_cases ha1 : a = "<"
      · subst ha1
        cases rest with
        | nil => rfl
        | cons b rest2 =>
          have he : parse_redirections ("<" :: b :: rest2) r
              = parse_redirections rest2 { r with rin := b } := rfl
          rw [he]
          exact ih rest2 _ (by simp at hlen; omega)
      · by_cases ha2 : a = ">"
        · subst ha2
          cases rest with
          | nil => rfl
          | cons b rest2 =>
            have he : parse_redirections (">" :: b :: rest2) r
                = parse_redirections rest2 { r with out := b, append := false } := rfl
            rw [he]
            exact ih rest2 _ (by simp at hlen; omega)
        · by_cases ha3 : a = ">>"
          · subst ha3
            cases rest with
            | nil => rfl
            | cons b rest2 =>
              have he : parse_redirections (">>" :: b :: rest2) r
                  = parse_redirections rest2 { r with out := b, append := true } := rfl
              rw [he]
              exact ih rest2 _ (by simp at hlen; omega)
          · have hop : isRedirOp a = false := by
              simp [isRedirOp, ha1, ha2, ha3]
            have he : parse_redirections (a :: rest) r
                = (a :: (parse_redirections rest r).1, (parse_redirections rest r).2) := by
              rw [parse_redirections.eq_def]
              simp only [if_neg ha1, if_neg ha2, if_neg ha3]
            rw [he]
            cases hp : (parse_redirections rest r).1 with
            | nil => rfl
            | cons x xs =>
              rw [List.dropLast_cons₂, List.all_cons, hop]
              have hrec := ih rest r hlen
              rw [hp] at hrec
              simpa using hrec

/-- C3 (amended): after redirection parsing, no word of the resulting list
except possibly its final one is `<`, `>` or `>>`; an operator with a
following operand is consumed together with it, while an operator in final
position (missing operand) is not rejected — there is no
RedirWithoutOperand error — but passed through as an ordinary trailing
word, as `parse_redirections [">"]` keeping `[">"]` shows. -/
theorem C3_no_interior_operator (argv : List String) (r : Redir) :
    ((parse_redirections argv r).1.dropLast.all (fun w => !(isRedirOp w))) = true
    ∧ (parse_redirections [">"] {}).1.dropLast = [] :=
  ⟨parse_redirections_ops_aux argv.length argv r (Nat.le_refl _), rfl⟩

/-! ## Claim C4 — unterminated quotes -/

/-- C4, counterexample.  `mshell::tokenize` has no failure mode: the line
`'abc` leaves the machine in state `IN_SQ` at end-of-input, yet the
function still flushes the accumulated word and returns the token list
`["abc"]` — no UnterminatedQuote error exists anywhere in the code and the
end state is never checked. -/
theorem C4_counterexample :
    tokenizeSt "'abc" = (["abc"], TState.IN_SQ)
    ∧ decide ((tokenizeSt "'abc").2 = TState.BASE) = false := by
  decide

/-- Inside a single quote every character is accumulated literally, and at
end-of-input the pending word is flushed although the quote never closed. -/
theorem tokenizeAuxF_in_sq :
    ∀ (body : List Char) (f : Nat) (cur : List Char) (acc : List String),
      body.length ≤ f → '\'' ∉ body →
      tokenizeAuxF f body TState.IN_SQ cur acc
        = (flushTok acc (cur ++ body), TState.IN_SQ) := by
  intro body
  induction body with
  | nil =>
    intro f cur acc _ _
    cases f <;> simp [tokenizeAuxF]
  | cons c cs ih =>
    intro f cur acc hf hmem
    cases f with
    | zero => simp at hf
    | succ f2 =>
      have hc : ¬(c = '\'') := by
        intro hh
        exact hmem (by rw [hh]; exact List.mem_cons_self _ _)
      have he : tokenizeAuxF (f2 + 1) (c :: cs) TState.IN_SQ cur acc
          = tokenizeAuxF f2 cs TState.IN_SQ (cur ++ [c]) acc := by
        simp only [tokenizeAuxF, if_neg hc]
      rw [he, ih f2 (cur ++ [c]) acc (by simp at hf; omega)
        (fun hm => hmem (List.mem_cons_of_mem _ hm))]
      simp

/-- C4 (amended): tokenization never fails; a line that is a single quote
followed by quote-free text succeeds, returning the text after the quote
as the pending word flushed at end-of-input, the machine finishing in
state `IN_SQ` — the end state is not required to be `BASE`. -/
theorem C4_unterminated_quote (body : List Char) (h : '\'' ∉ body) :
    tokenizeSt (String.mk ('\'' :: body)) = (flushTok [] body, TState.IN_SQ) := by
  unfold tokenizeSt
  have ht : (String.mk ('\'' :: body)).toList = '\'' :: body := rfl
  rw [ht]
  have he : tokenizeAuxF ('\'' :: body).length ('\'' :: body) TState.BASE [] []
      = tokenizeAuxF body.length body TState.IN_SQ [] [] := by
    simp [tokenizeAuxF, isCSpace]
  rw [he, tokenizeAuxF_in_sq body body.length [] [] (Nat.le_refl _) h]
  rfl

/-- C4, witness: the amended theorem on the quote-free body `abc`. -/
theorem C4_unterminated_quote_witness :
    tokenizeSt (String.mk ('\'' :: ['a', 'b', 'c']))
      = (flushTok [] ['a', 'b', 'c'], TState.IN_SQ) :=
  C4_unterminated_quote ['a', 'b', 'c'] (by decide)

/-! ## Claim C8 — parameter expansion -/

/-- C8, counterexample.  The `$NAME` scan accepts any run of
`isalnum || _` characters — a leading digit included — so `$9x` is not
left untouched: with the variable `9x` set to `V` the token expands to
`V`, and with it undefined the token expands to the empty string. -/
theorem C8_counterexample :
    String.mk (expand_params (fun k => if k = "9x" then "V" else "")
      (String.toList "$9x")) = "V"
    ∧ decide (expand_params (fun _ => "") (String.toList "$9x")
        = String.toList "$9x") = false := by
  decide

/-- The split at the first closing brace found by the `${...}` scan. -/
theorem takeUntilBrace_append (key rest : List Char) (h : '\x7d' ∉ key) :
    takeUntilBrace (key ++ '\x7d' :: rest) = some (key, rest) := by
  induction key with
  | nil => simp [takeUntilBrace]
  | cons c cs ih =>
    have hc : ¬(c = '\x7d') := fun hh => h (by rw [hh]; exact List.mem_cons_self _ _)
    have hcs : '\x7d' ∉ cs := fun hm => h (List.mem_cons_of_mem _ hm)
    simp [takeUntilBrace, hc, ih hcs]

/-- What remains after `takeUntilBrace` is shorter than its input. -/
theorem takeUntilBrace_len :
    ∀ (l : List Char) (a b : List Char),
      takeUntilBrace l = some (a, b) → b.length < l.length := by
  intro l
  induction l with
  | nil => intro a b h; simp [takeUntilBrace] at h
  | cons c cs ih =>
    intro a b h
    by_cases hc : c = '\x7d'
    · rw [takeUntilBrace, if_pos hc] at h
      simp only [Option.some.injEq, Prod.mk.injEq] at h
      have hb : b = cs := h.2.symm
      subst hb
      simp
    · rw [takeUntilBrace, if_neg hc] at h
      cases htb : takeUntilBrace cs with
      | none => rw [htb] at h; exact absurd h (by simp)
      | some p =>
        obtain ⟨p1, p2⟩ := p
        rw [htb] at h
        simp only [Option.some.injEq, Prod.mk.injEq] at h
        have hlt := ih p1 p2 htb
        have hb : b = p2 := h.2.symm
        rw [hb, List.length_cons]
        omega

/-- Whatever `scanDollar` leaves unconsumed is no longer than its input. -/
theorem scanDollar_lbrace (env : String → String) (rest2 : List Char) :
    scanDollar env ('\x7b' :: rest2)
      = match takeUntilBrace rest2 with
        | some (key, after) => some ((env (String.mk key)).toList, after)
        | none => none := rfl

theorem scanDollar_suffix (env : String → String) :
    ∀ (rest rep after : List Char),
      scanDollar env rest = some (rep, after) → after.length ≤ rest.length := by
  intro rest rep after h
  cases rest with
  | nil => simp [scanDollar] at h
  | cons b rest2 =>
    by_cases hb : b = '\x7b'
    · subst hb
      rw [scanDollar_lbrace] at h
      cases htb : takeUntilBrace rest2 with
      | none => rw [htb] at h; simp at h
      | some p =>
        obtain ⟨key, after2⟩ := p
        rw [htb] at h
        simp only [Option.some.injEq, Prod.mk.injEq] at h
        have hlt := takeUntilBrace_len rest2 key after2 htb
        have hafter : after = after2 := h.2.symm
        rw [hafter, List.length_cons]
        omega
    · simp only [scanDollar, if_neg hb] at h
      by_cases hlen : 0 < ((b :: rest2).takeWhile isNameChar).length
      · rw [if_pos hlen] at h
        simp only [Option.some.injEq, Prod.mk.injEq] at h
        have hafter : after
            = (b :: rest2).drop ((b :: rest2).takeWhile isNameChar).length := h.2.symm
        rw [hafter, List.length_drop]
        omega
      · rw [if_neg hlen] at h
        simp at h

/-- The fuel of `expand_paramsF` is irrelevant once it covers the input
length: the loop consumes at least one character per iteration. -/
theorem expand_paramsF_irrel (env : String → String) :
    ∀ (f1 f2 : Nat) (cs : List Char), cs.length ≤ f1 → cs.length ≤ f2 →
      expand_paramsF env f1 cs = expand_paramsF env f2 cs := by
  intro f1
  induction f1 with
  | zero =>
    intro f2 cs h1 _
    have hnil : cs = [] := List.eq_nil_of_length_eq_zero (Nat.le_zero.mp h1)
    subst hnil
    cases f2 <;> rfl
  | succ g ih =>
    intro f2 cs h1 h2
    cases cs with
    | nil => cases f2 <;> rfl
    | cons c rest =>
      cases f2 with
      | zero => simp at h2
      | succ g2 =>
        have hr1 : rest.length ≤ g := by simp at h1; omega
        have hr2 : rest.length ≤ g2 := by simp at h2; omega
        simp only [expand_paramsF]
        by_cases hc : c = '$'
        · rw [if_pos hc, if_pos hc]
          cases hs : scanDollar env rest with
          | none =>
            show c :: expand_paramsF env g rest = c :: expand_paramsF env g2 rest
            rw [ih g2 rest hr1 hr2]
          | some p =>
            obtain ⟨rep, after⟩ := p
            have hsuf := scanDollar_suffix env rest rep after hs
            show rep ++ expand_paramsF env g after = rep ++ expand_paramsF env g2 after
            rw [ih g2 after (le_trans hsuf hr1) (le_trans hsuf hr2)]
        · rw [if_neg hc, if_neg hc, ih g2 rest hr1 hr2]

/-- One unfolding of the scan loop, fuel hidden. -/
theorem expand_params_cons (env : String → String) (c : Char) (rest : List Char) :
    expand_params env (c :: rest)
      = if c = '$' then
          match scanDollar env rest with
          | some (rep, after) => rep ++ expand_params env after
          | none => c :: expand_params env rest
        else c :: expand_params env rest := by
  unfold expand_params
  simp only [List.length_cons, expand_paramsF]
  by_cases hc : c = '$'
  · rw [if_pos hc, if_pos hc]
    cases hs : scanDollar env rest with
    | none => rfl
    | some p =>
      obtain ⟨rep, after⟩ := p
      have hsuf := scanDollar_suffix env rest rep after hs
      show rep ++ expand_paramsF env rest.length after
        = rep ++ expand_paramsF env after.length after
      rw [expand_paramsF_irrel env rest.length after.length after hsuf (Nat.le_refl _)]
  · rw [if_neg hc, if_neg hc]

/-- A maximal run of name characters followed by a non-name character is
exactly what the `$NAME` scan takes. -/
theorem takeWhile_name_append (rest : List Char)
    (hr : ∀ d, rest.head? = some d → isNameChar d = false) :
    ∀ (name : List Char), (∀ c ∈ name, isNameChar c = true) →
      (name ++ rest).takeWhile isNameChar = name := by
  intro name
  induction name with
  | nil =>
    intro _
    cases rest with
    | nil => rfl
    | cons d dr => simp [List.takeWhile_cons, hr d rfl]
  | cons c cs ih =>
    intro hall
    have hc := hall c (List.mem_cons_self _ _)
    simp [List.takeWhile_cons, hc,
      ih (fun x hx => hall x (List.mem_cons_of_mem _ hx))]

/-- The `$NAME` case of the scan: a nonempty run of name characters at the
front is consumed and looked up. -/
theorem scanDollar_name (env : String → String) (name rest : List Char)
    (hne : name ≠ []) (hall : ∀ c ∈ name, isNameChar c = true)
    (hr : ∀ d, rest.head? = some d → isNameChar d = false) :
    scanDollar env (name ++ rest) = some ((env (String.mk name)).toList, rest) := by
  cases name with
  | nil => exact absurd rfl hne
  | cons a as =>
    have ha := hall a (List.mem_cons_self _ _)
    have hbr : ¬(a = '\x7b') := by
      intro hh
      rw [hh] at ha
      exact absurd ha (by decide)
    have htw : (a :: as ++ rest).takeWhile isNameChar = a :: as :=
      takeWhile_name_append rest hr (a :: as) hall
    have hdr : (a :: as ++ rest).drop (a :: as).length = rest := List.drop_left _ _
    rw [List.cons_append] at htw hdr
    simp only [List.cons_append, scanDollar, if_neg hbr, htw, hdr]
    simp

/-- The `${KEY}` case of the scan: everything before the first closing
brace is the key, however it is shaped. -/
theorem scanDollar_brace (env : String → String) (key rest : List Char)
    (hkey : '\x7d' ∉ key) :
    scanDollar env ('\x7b' :: (key ++ '\x7d' :: rest))
      = some ((env (String.mk key)).toList, rest) := by
  rw [scanDollar_lbrace, takeUntilBrace_append key rest hkey]

/-- C8 (amended): parameter expansion replaces `$NAME` with the value of
the environment variable (empty string when undefined) for NAME any
maximal nonempty run of characters matching `[A-Za-z0-9_]+` — a digit may
come first, so `$9x` is expanded, not left untouched — and replaces
`${NAME}` for NAME everything up to the first closing brace, with no shape
restriction on it; the substituted value is skipped, not rescanned. -/
theorem C8_param_expansion (env : String → String) (name key rest1 rest2 : List Char)
    (hne : name ≠ []) (hall : ∀ c ∈ name, isNameChar c = true)
    (hr : ∀ d, rest1.head? = some d → isNameChar d = false)
    (hkey : '\x7d' ∉ key) :
    expand_params env ('$' :: (name ++ rest1))
      = (env (String.mk name)).toList ++ expand_params env rest1
    ∧ expand_params env ('$' :: '\x7b' :: (key ++ '\x7d' :: rest2))
      = (env (String.mk key)).toList ++ expand_params env rest2 := by
  constructor
  · rw [expand_params_cons, if_pos rfl, scanDollar_name env name rest1 hne hall hr]
  · rw [expand_params_cons, if_pos rfl, scanDollar_brace env key rest2 hkey]

/-- C8, witness: the amended theorem expanding `$9x` (name starting with a
digit, variable set to `V`) and `${A}b`. -/
theorem C8_param_expansion_witness :
    expand_params (fun k => if k = "9x" then "V" else "") ('$' :: (['9', 'x'] ++ []))
      = ((fun k : String => if k = "9x" then "V" else "")
          (String.mk ['9', 'x'])).toList
        ++ expand_params (fun k => if k = "9x" then "V" else "") []
    ∧ expand_params (fun k => if k = "9x" then "V" else "")
        ('$' :: '\x7b' :: (['A'] ++ '\x7d' :: ['b']))
      = ((fun k : String => if k = "9x" then "V" else "")
          (String.mk ['A'])).toList
        ++ expand_params (fun k => if k = "9x" then "V" else "") ['b'] :=
  C8_param_expansion (fun k => if k = "9x" then "V" else "") ['9', 'x'] ['A'] [] ['b']
    (by decide) (by decide) (fun d hd => by simp at hd) (by decide)
